import Mathlib

/-!
Verification of the `harv` command-line time-tracking assistant.

The Rust sources are shallowly embedded: strings are lists of characters
(`Str`), `u32`/`u64` values are `Nat` with explicit bounds where overflow
matters, `f64` values are modelled by `FVal` (an exact rational together
with the IEEE special values `inf`, `-inf` and `nan`; rounding of finite
values is not modelled), fallible functions return `Except`, and effectful
code takes its environment (HTTP responses, prompt answers, file system)
as explicit oracle values and returns the list of mutating calls it would
issue.  The ticket regular expression is compiled by the `regex` crate
with its default Unicode semantics, so its three character classes are
Unicode tables; the scanner is therefore parametric in the classes
(`RegexClasses`), every universal theorem about it assumes only facts
true of the engine's tables (`LawfulClasses`), and concrete inputs are
evaluated at an instantiation (`modelClasses`) that is exact for the
case-insensitive letter class and agrees with the engine's digit and
word tables on every character occurring in a concrete input below.
-/

namespace Harv

/-- Strings are modelled as lists of characters. -/
abbrev Str := List Char

/-- ASCII decimal digit: the digits accepted by Rust's integer and float
parsers (`from_str` accepts only ASCII digits). -/
def isDigitC (c : Char) : Bool :=
  48 ≤ c.toNat && c.toNat ≤ 57

/-- ASCII letter. -/
def isAlphaC (c : Char) : Bool :=
  (97 ≤ c.toNat && c.toNat ≤ 122) || (65 ≤ c.toNat && c.toNat ≤ 90)

/-- The characters matched by `(?i)[a-z]` under the regex crate's Unicode
simple case folding: the fold closure of `a`–`z`, which is the ASCII
letters together with `ſ` (U+017F, long s, which folds to `s`) and the
Kelvin sign `K` (U+212A, which folds to `k`).  This class is exact. -/
def isAlphaCI (c : Char) : Bool :=
  isAlphaC c || c.toNat = 0x17F || c.toNat = 0x212A

/-- Model of the regex class `\d` (Unicode `Nd`), faithful on the
repertoire used by the concrete statements of this development: the ASCII
digits together with the Arabic-Indic digits U+0660–U+0669.  Decimal
digits of other scripts (also `Nd`, hence matched by the engine) are
outside the model; every universal theorem about the scanner is
parametric in the digit class and this definition only evaluates concrete
inputs drawn from the repertoire. -/
def isDigitNd (c : Char) : Bool :=
  isDigitC c || (0x660 ≤ c.toNat && c.toNat ≤ 0x669)

/-- Model of the word class behind `\b` (Unicode `\w`), faithful on the
repertoire used by the concrete statements of this development: the ASCII
word characters, the Latin-1 letters (ª, µ, º, À–Ö, Ø–ö, ø–ÿ), `ſ`, `K`
and the Arabic-Indic digits.  Characters outside the repertoire are
classified as non-word, which agrees with the engine on every character
occurring in a concrete input below but not on all of Unicode; every
universal theorem about the scanner is parametric in the word class. -/
def isWordU (c : Char) : Bool :=
  isAlphaCI c || isDigitNd c || c.toNat = 95 ||
    (0xC0 ≤ c.toNat && c.toNat ≤ 0xFF && c.toNat ≠ 0xD7 && c.toNat ≠ 0xF7) ||
    c.toNat = 0xAA || c.toNat = 0xB5 || c.toNat = 0xBA

/-- The three character classes of the pattern `(?i)\b([a-z]+)-(\d+)\b`:
the case-insensitive letter class of `(?i)[a-z]`, the digit class `\d`,
and the word class behind `\b`.  The scanner is parametric in them so
that its theorems hold for the engine's full Unicode tables. -/
structure RegexClasses where
  isAlpha : Char → Bool
  isDigit : Char → Bool
  isWord : Char → Bool

/-- The facts about the engine's classes that the analysis of the scanner
uses, all true of the Unicode tables: every letter of the fold closure of
`[a-z]` is a word character, every decimal digit is a word character, no
letter of the fold closure is a decimal digit, and the hyphen is not in
the letter class. -/
structure LawfulClasses (C : RegexClasses) : Prop where
  alpha_word : ∀ c, C.isAlpha c = true → C.isWord c = true
  digit_word : ∀ c, C.isDigit c = true → C.isWord c = true
  alpha_not_digit : ∀ c, C.isAlpha c = true → C.isDigit c = false
  hyphen_not_alpha : C.isAlpha '-' = false

/-- The concrete instantiation at which this development evaluates the
scanner: the exact fold-closure letter class and the repertoire-faithful
digit and word classes. -/
def modelClasses : RegexClasses :=
  { isAlpha := isAlphaCI, isDigit := isDigitNd, isWord := isWordU }

/-- Whitespace as recognised by `str::trim`, modelled at the ASCII level. -/
def isWsC (c : Char) : Bool :=
  c.toNat = 32 || c.toNat = 9 || c.toNat = 10 || c.toNat = 13 ||
    c.toNat = 0x0B || c.toNat = 0x0C

/-- `str::trim`: remove leading and trailing whitespace. -/
def trim (s : Str) : Str :=
  ((s.dropWhile isWsC).reverse.dropWhile isWsC).reverse

/-- `str::split(sep)`: split on every occurrence of the separator,
keeping empty pieces (`"1:"` splits into `["1", ""]`). -/
def splitChar (sep : Char) (s : Str) : List Str :=
  match s with
  | [] => [[]]
  | c :: cs =>
    let rest := splitChar sep cs
    if c = sep then [] :: rest
    else match rest with
      | [] => [[c]]
      | r :: rs => (c :: r) :: rs

/-- Value of a non-empty all-digit string. -/
def digitsVal (s : Str) : Nat :=
  s.foldl (fun acc c => acc * 10 + (c.toNat - '0'.toNat)) 0

/-- Parse of an unbounded non-negative integer literal: an optional leading
`+` sign followed by at least one ASCII digit (the grammar accepted by
Rust's unsigned `from_str`, without the range check). -/
def natLiteral (s : Str) : Option Nat :=
  let t := match s with
    | '+' :: rest => rest
    | other => other
  if t ≠ [] && t.all isDigitC then some (digitsVal t) else none

/-- `u32::from_str`: the unbounded literal parse followed by the `u32`
range check (values of `2^32` or more overflow and are rejected). -/
def parseU32 (s : Str) : Option Nat :=
  match natLiteral s with
  | some n => if n < 2 ^ 32 then some n else none
  | none => none

/-- Model of an `f64` value: an exact rational, or one of the IEEE special
values.  Rounding of finite values to binary64 is not modelled. -/
inductive FVal where
  | finite (q : ℚ)
  | inf
  | neginf
  | nan
  deriving DecidableEq

/-- The IEEE comparison `v <= 0.0` (false on `nan`). -/
def FVal.leZero : FVal → Bool
  | .finite q => decide (q ≤ 0)
  | .inf => false
  | .neginf => true
  | .nan => false

/-- The IEEE comparison `v > 24.0` (false on `nan`). -/
def FVal.gt24 : FVal → Bool
  | .finite q => decide (24 < q)
  | .inf => true
  | .neginf => false
  | .nan => false

/-- Case-insensitive comparison with a lowercase ASCII keyword. -/
def eqKeyword (s : Str) (kw : Str) : Bool :=
  s.length = kw.length &&
    (List.zip s kw).all fun p => p.1 = p.2 || (p.1.toNat + 32 = p.2.toNat &&
      'A' ≤ p.1 && p.1 ≤ 'Z')

/-- Grammar of the exponent part `( 'e' | 'E' ) sign? digits` of a float
literal, returning the signed exponent. -/
def parseExp (s : Str) : Option ℤ :=
  match s with
  | 'e' :: rest | 'E' :: rest =>
    match rest with
    | '+' :: ds => if ds ≠ [] && ds.all isDigitC then some (digitsVal ds) else none
    | '-' :: ds => if ds ≠ [] && ds.all isDigitC then some (-(digitsVal ds : ℤ)) else none
    | ds => if ds ≠ [] && ds.all isDigitC then some (digitsVal ds) else none
  | _ => none

/-- The mantissa-and-exponent part of a float literal:
`digits ('.' digits?)? exp?  |  '.' digits exp?`, valued exactly in `ℚ`. -/
def parseMantissa (s : Str) : Option ℚ :=
  let intPart := s.takeWhile isDigitC
  let rest := s.dropWhile isDigitC
  match rest with
  | [] => if intPart ≠ [] then some (digitsVal intPart : ℚ) else none
  | '.' :: rest2 =>
    let fracPart := rest2.takeWhile isDigitC
    let rest3 := rest2.dropWhile isDigitC
    if intPart = [] && fracPart = [] then none
    else
      let base : ℚ := (digitsVal intPart : ℚ) +
        (digitsVal fracPart : ℚ) / ((10 : ℚ) ^ fracPart.length)
      match rest3 with
      | [] => some base
      | e => (parseExp e).map fun k => base * (10 : ℚ) ^ (k : ℤ)
  | e =>
    if intPart = [] then none
    else (parseExp e).map fun k => (digitsVal intPart : ℚ) * (10 : ℚ) ^ (k : ℤ)

/-- `f64::from_str`: optional sign, then `inf`, `infinity` or `nan`
(case-insensitive) or a decimal mantissa with optional exponent.
Finite values are modelled exactly in `ℚ`. -/
def parseF64 (s : Str) : Option FVal :=
  let (neg, body) : Bool × Str := match s with
    | '+' :: rest => (false, rest)
    | '-' :: rest => (true, rest)
    | other => (false, other)
  if eqKeyword body ('i' :: 'n' :: 'f' :: []) ||
      eqKeyword body ('i' :: 'n' :: 'f' :: 'i' :: 'n' :: 'i' :: 't' :: 'y' :: []) then
    some (if neg then .neginf else .inf)
  else if eqKeyword body ('n' :: 'a' :: 'n' :: []) then
    some .nan
  else
    (parseMantissa body).map fun q => .finite (if neg then -q else q)

/-- Errors are modelled without their message strings. -/
inductive HErr where
  | config
  | harvest
  | jira
  | noTicketsFound
  | userCancelled
  | io
  | json
  | ai
  | invalidEntry
  | showHelp
  deriving DecidableEq

/-- `parse_decimal` from `time_parser.rs`: delegate to the float parse,
any parse failure is an `InvalidEntry` error. -/
def parseDecimal (s : Str) : Except HErr FVal :=
  match parseF64 s with
  | some v => .ok v
  | none => .error .invalidEntry

/-- `parse_colon_format` from `time_parser.rs`: split on `:` into exactly
two parts, trim each, parse both as `u32`, require minutes below 60, and
return `h + m/60`. -/
def parseColonFormat (s : Str) : Except HErr FVal :=
  match splitChar ':' s with
  | [hs, ms] =>
    match parseU32 (trim hs) with
    | none => .error .invalidEntry
    | some h =>
      match parseU32 (trim ms) with
      | none => .error .invalidEntry
      | some m =>
        if 60 ≤ m then .error .invalidEntry
        else .ok (.finite ((h : ℚ) + (m : ℚ) / 60))
  | _ => .error .invalidEntry

/-- The range validation at the end of `parse_hours`: reject values that
are `<= 0.0` or `> 24.0` under IEEE comparison. -/
def boundsCheck (r : Except HErr FVal) : Except HErr FVal :=
  match r with
  | .error e => .error e
  | .ok hours =>
    if hours.leZero then .error .invalidEntry
    else if hours.gt24 then .error .invalidEntry
    else .ok hours

/-- `parse_hours` from `time_parser.rs`: trim, reject empty input, parse
in colon or decimal form depending on the presence of `:`, and reject
results that are `<= 0` or `> 24` under IEEE comparison. -/
def parseHours (input : Str) : Except HErr FVal :=
  let t := trim input
  if t = [] then .error .invalidEntry
  else boundsCheck (if t.contains ':' then parseColonFormat t else parseDecimal t)

/-- Unbounded non-negative integer parse, following the specification's
words for the colon form (`both must parse as non-negative integers`,
with no machine range restriction). -/
def specNonnegInt (s : Str) : Option Nat :=
  natLiteral s

/-- The colon form as the specification words it: exactly two parts, both
non-negative integers, minutes in `[0, 59]`, value `h + m/60`. -/
def specColonFormat (s : Str) : Except HErr FVal :=
  match splitChar ':' s with
  | [hs, ms] =>
    match specNonnegInt (trim hs) with
    | none => .error .invalidEntry
    | some h =>
      match specNonnegInt (trim ms) with
      | none => .error .invalidEntry
      | some m =>
        if 60 ≤ m then .error .invalidEntry
        else .ok (.finite ((h : ℚ) + (m : ℚ) / 60))
  | _ => .error .invalidEntry

/-- `parse_hours` as the specification words it: trim; error on empty
input; if the string contains `:` use the colon form, otherwise parse as
a real number; error exactly when the value is `<= 0` or `> 24`. -/
def parseHoursSpec (input : Str) : Except HErr FVal :=
  let t := trim input
  if t = [] then .error .invalidEntry
  else boundsCheck (if t.contains ':' then specColonFormat t else parseDecimal t)

lemma colonBounds (t : Str) :
    boundsCheck (parseColonFormat t) = boundsCheck (specColonFormat t) := by
  rcases hsp : splitChar ':' t with _ | ⟨p0, _ | ⟨p1, _ | ⟨p2, ps⟩⟩⟩
  · simp [parseColonFormat, specColonFormat, hsp]
  · simp [parseColonFormat, specColonFormat, hsp]
  · cases h0 : natLiteral (trim p0) with
    | none =>
      simp [parseColonFormat, specColonFormat, specNonnegInt, parseU32, hsp, h0]
    | some h =>
      cases h1 : natLiteral (trim p1) with
      | none =>
        by_cases hb : h < 4294967296 <;>
          simp [parseColonFormat, specColonFormat, specNonnegInt, parseU32,
            hsp, h0, h1, hb]
      | some m =>
        by_cases hb : h < 4294967296
        · by_cases mb : m < 4294967296
          · simp [parseColonFormat, specColonFormat, specNonnegInt, parseU32,
              hsp, h0, h1, hb, mb]
          · have hm : 60 ≤ m := by omega
            simp [parseColonFormat, specColonFormat, specNonnegInt, parseU32,
              hsp, h0, h1, hb, mb, hm]
        · have h32 : ((4294967296 : ℚ)) ≤ (h : ℚ) := by
            exact_mod_cast Nat.le_of_not_lt hb
          have hm0 : (0 : ℚ) ≤ (m : ℚ) / 60 := by positivity
          have hq0 : FVal.leZero (.finite ((h : ℚ) + (m : ℚ) / 60)) = false := by
            simp only [FVal.leZero, decide_eq_false_iff_not]
            intro hle
            nlinarith
          have hq24 : FVal.gt24 (.finite ((h : ℚ) + (m : ℚ) / 60)) = true := by
            simp only [FVal.gt24, decide_eq_true_eq]
            nlinarith
          by_cases hm : 60 ≤ m
          · simp [parseColonFormat, specColonFormat, specNonnegInt, parseU32,
              hsp, h0, h1, hb, hm]
          · simp [parseColonFormat, specColonFormat, specNonnegInt, parseU32,
              hsp, h0, h1, hb, hm, boundsCheck, hq0, hq24]
  · simp [parseColonFormat, specColonFormat, hsp]

/-- C2: `parse_hours` contract.  For every input string, after trimming:
a string containing `:` must split into exactly two parts that both parse
as non-negative integers with minutes in `[0, 59]`, yielding `h + m/60`;
any other string is parsed as a real number; the function returns an
`InvalidEntry` error exactly when the input is empty, malformed, or the
resulting value is `<= 0` or `> 24` — i.e. the source function coincides
with the function worded by the specification (`parseHoursSpec`). -/
theorem parse_hours_contract (s : Str) : parseHours s = parseHoursSpec s := by
  unfold parseHours parseHoursSpec
  by_cases he : trim s = []
  · simp [he]
  · by_cases hc : ':' ∈ trim s
    · simp [he, hc, colonBounds]
    · simp [he, hc]

/-- Boundary test of `\b` after the digits: satisfied at end of input or
when the next character is not a word character. -/
def boundaryAfter (C : RegexClasses) (rest : Str) : Bool :=
  match rest.head? with
  | none => true
  | some c => !C.isWord c

/-- One attempt of the pattern `(?i)\b([a-z]+)-(\d+)\b` anchored at the head
of `s`, the left boundary having been checked by the caller: a maximal run
of letters, a hyphen, a maximal non-empty run of digits, and the trailing
boundary.  Returns the letters, the digits and the input past the match.
A failed attempt cannot be rescued by backtracking: a shorter letter run
faces a letter where `-` is required, and a shorter digit run faces a digit
where `\b` is required, exactly as in the regex engine. -/
def tryMatch (C : RegexClasses) (s : Str) : Option (Str × Str × Str) :=
  let ls := s.takeWhile C.isAlpha
  if ls = [] then none
  else
    match s.dropWhile C.isAlpha with
    | '-' :: r2 =>
      let ds := r2.takeWhile C.isDigit
      if ds = [] then none
      else
        let rest := r2.dropWhile C.isDigit
        if boundaryAfter C rest then some (ls, ds, rest) else none
    | _ => none

lemma takeWhile_append_eval (p : Char → Bool) (l r : Str)
    (hl : ∀ x ∈ l, p x = true) (hr : ∀ c, r.head? = some c → p c = false) :
    (l ++ r).takeWhile p = l ∧ (l ++ r).dropWhile p = r := by
  induction l with
  | nil =>
    cases r with
    | nil => simp [List.takeWhile, List.dropWhile]
    | cons c cs =>
      have := hr c rfl
      simp [List.takeWhile, List.dropWhile, this]
  | cons a l ih =>
    have ha : p a = true := hl a (by simp)
    have ihr := ih (fun x hx => hl x (by simp [hx]))
    simp [List.takeWhile, List.dropWhile, ha, ihr.1, ihr.2]

/-- A successful attempt decomposes the input into a non-empty letter
run, a hyphen, a non-empty digit run, and a remainder satisfying the
trailing boundary (this direction needs no facts about the classes). -/
lemma tryMatch_decomp {C : RegexClasses} {s ls ds rest : Str}
    (h : tryMatch C s = some (ls, ds, rest)) :
    s = ls ++ '-' :: (ds ++ rest) ∧ ls ≠ [] ∧ (∀ c ∈ ls, C.isAlpha c = true) ∧
      ds ≠ [] ∧ (∀ c ∈ ds, C.isDigit c = true) ∧
      boundaryAfter C rest = true := by
  unfold tryMatch at h
  by_cases hls : s.takeWhile C.isAlpha = []
  · simp [hls] at h
  · simp only [hls, if_false] at h
    split at h
    · rename_i r2 heq
      by_cases hds : r2.takeWhile C.isDigit = []
      · simp [hds] at h
      · simp only [hds, if_false] at h
        by_cases hb : boundaryAfter C (r2.dropWhile C.isDigit) = true
        · simp only [hb, if_true, Option.some.injEq, Prod.mk.injEq] at h
          obtain ⟨hls2, hds2, hrest⟩ := h
          subst hls2; subst hds2; subst hrest
          refine ⟨?_, hls, ?_, hds, ?_, hb⟩
          · conv_lhs => rw [← List.takeWhile_append_dropWhile C.isAlpha s]
            rw [heq, List.takeWhile_append_dropWhile C.isDigit r2]
          · intro c hc
            exact List.mem_takeWhile_imp hc
          · intro c hc
            exact List.mem_takeWhile_imp hc
        · simp [hb] at h
    · simp at h

/-- Characterisation of a successful attempt: under the engine facts it is
exactly a boundary-satisfying decomposition. -/
lemma tryMatch_eq_some {C : RegexClasses} (L : LawfulClasses C)
    (s ls ds rest : Str) :
    tryMatch C s = some (ls, ds, rest) ↔
      s = ls ++ '-' :: (ds ++ rest) ∧ ls ≠ [] ∧ (∀ c ∈ ls, C.isAlpha c = true) ∧
        ds ≠ [] ∧ (∀ c ∈ ds, C.isDigit c = true) ∧
        boundaryAfter C rest = true := by
  constructor
  · exact tryMatch_decomp
  · rintro ⟨hdecomp, hls, hall, hds, hdall, hb⟩
    have hstep1 := takeWhile_append_eval C.isAlpha ls ('-' :: (ds ++ rest)) hall
      (by intro c hc; injection hc with hc; subst hc; exact L.hyphen_not_alpha)
    have hdigits : ∀ c, rest.head? = some c → C.isDigit c = false := by
      intro c hc
      have hw := hb
      unfold boundaryAfter at hw
      rw [hc] at hw
      simp only [Bool.not_eq_true'] at hw
      cases hd : C.isDigit c
      · rfl
      · exfalso
        rw [L.digit_word c hd] at hw
        exact Bool.noConfusion hw
    have hstep2 := takeWhile_append_eval C.isDigit ds rest hdall hdigits
    unfold tryMatch
    rw [hdecomp, hstep1.1, hstep1.2]
    simp only [hls, if_false, hstep2.1, hstep2.2, hds, hb, if_true]

lemma tryMatch_rest_lt {C : RegexClasses} {s ls ds rest : Str}
    (h : tryMatch C s = some (ls, ds, rest)) : rest.length < s.length := by
  obtain ⟨hdecomp, hls, -, -, -, -⟩ := tryMatch_decomp h
  subst hdecomp
  have : 1 ≤ ls.length := List.length_pos.mpr hls
  simp only [List.length_append, List.length_cons]
  omega

/-- The scan loop of `captures_iter` for `(?i)\b([a-z]+)-(\d+)\b`,
written with explicit fuel so that it is structurally recursive (the fuel
is immaterial as long as it dominates the input length, see
`scanAux_fuel`): `prevW` records whether the previous character (if any)
is a word character; an attempt is made only when it is not (the left
`\b`); a successful match is emitted and the scan resumes past its digits
(whose last character is a word character). -/
def scanAux (C : RegexClasses) : Nat → Bool → Str → List (Str × Str)
  | 0, _, _ => []
  | _ + 1, _, [] => []
  | fuel + 1, prevW, c :: cs =>
    match (if prevW then none else tryMatch C (c :: cs)) with
    | some (ls, ds, rest) => (ls, ds) :: scanAux C fuel true rest
    | none => scanAux C fuel (C.isWord c) cs

/-- The scanner over a whole message. -/
def scanTickets (C : RegexClasses) (prevW : Bool) (s : Str) :
    List (Str × Str) :=
  scanAux C s.length prevW s

lemma scanAux_fuel (C : RegexClasses) : ∀ (f1 f2 : Nat) (prevW : Bool) (s : Str),
    s.length ≤ f1 → s.length ≤ f2 →
    scanAux C f1 prevW s = scanAux C f2 prevW s := by
  intro f1
  induction f1 with
  | zero =>
    intro f2 prevW s h1 h2
    have hs : s = [] := List.eq_nil_of_length_eq_zero (Nat.le_zero.mp h1)
    subst hs
    cases f2 <;> rfl
  | succ f1 ih =>
    intro f2 prevW s h1 h2
    cases s with
    | nil => cases f2 <;> rfl
    | cons c cs =>
      cases f2 with
      | zero => simp at h2
      | succ f2 =>
        rw [scanAux, scanAux]
        simp only [List.length_cons] at h1 h2
        cases htm : (if prevW then none else tryMatch C (c :: cs)) with
        | none =>
          dsimp only
          exact ih f2 (C.isWord c) cs (by omega) (by omega)
        | some triple =>
          obtain ⟨ls0, ds0, rest⟩ := triple
          have hr : rest.length < cs.length + 1 := by
            have hp : prevW = false := by
              cases prevW
              · rfl
              · simp at htm
            rw [hp] at htm
            simp only [if_neg (by simp : ¬ false = true)] at htm
            simpa using tryMatch_rest_lt htm
          dsimp only
          rw [ih f2 true rest (by omega) (by omega)]

/-- `str::to_uppercase` restricted to the letters a capture can contain:
ASCII lowercase maps to uppercase, `ſ` (U+017F) uppercases to `S`, and
every other character — in particular `K`, already uppercase — is left
unchanged.  On the fold closure of `[a-z]` this is exactly Rust's
`to_uppercase` (single-character there); elsewhere it is the identity.
The extractor applies it to captured letters (always in the fold
closure) and to denylist entries, where two strings identified by this
map are also identified by Rust's. -/
def toUpperCI (c : Char) : Char :=
  if c.toNat = 0x17F then 'S' else c.toUpper

/-- The normalised ticket string `"{PREFIX}-{NUMBER}"` built from a match:
the letters uppercased, a hyphen, and the digits. -/
def ticketOf (ls ds : Str) : Str :=
  ls.map toUpperCI ++ '-' :: ds

/-- Strict lexicographic order on strings by character code (the `Ord`
used by Rust's `sort` on ASCII strings). -/
def strLt : Str → Str → Bool
  | [], [] => false
  | [], _ :: _ => true
  | _ :: _, [] => false
  | x :: xs, y :: ys => x < y || (x = y && strLt xs ys)

/-- Insert a string into a sorted duplicate-free list, keeping it sorted
and duplicate-free: the model of `HashSet::insert` followed by `sort`. -/
def insertTicket (x : Str) : List Str → List Str
  | [] => [x]
  | y :: ys =>
    if strLt x y then x :: y :: ys
    else if x = y then y :: ys
    else y :: insertTicket x ys

/-- Canonical sorted duplicate-free form of a list of strings: the model of
collecting into a `HashSet` and sorting the result. -/
def sortedSet (l : List Str) : List Str :=
  l.foldl (fun acc x => insertTicket x acc) []

/-- `extract_tickets` from `ticket_parser.rs`: run the pattern over every
message, uppercase each match's letter prefix, drop matches whose
uppercased prefix is in the uppercased denylist, collect the normalised
tickets into a set and return it sorted. -/
def extractTickets (C : RegexClasses) (messages denylist : List Str) :
    List Str :=
  let denyUpper := denylist.map (fun d => d.map toUpperCI)
  let raw := messages.flatMap fun m =>
    (scanTickets C false m).filterMap fun p =>
      if denyUpper.contains (p.1.map toUpperCI) then none
      else some (ticketOf p.1 p.2)
  sortedSet raw

lemma lawful_modelClasses : LawfulClasses modelClasses := by
  refine ⟨?_, ?_, ?_, by decide⟩
  · intro c h
    have h' : isAlphaCI c = true := h
    show isWordU c = true
    simp [isWordU, h']
  · intro c h
    have h' : isDigitNd c = true := h
    show isWordU c = true
    simp [isWordU, h']
  · intro c h
    have h' : isAlphaCI c = true := h
    show isDigitNd c = false
    rw [Bool.eq_false_iff]
    intro hd
    simp only [isAlphaCI, isAlphaC, Bool.or_eq_true, Bool.and_eq_true,
      decide_eq_true_eq] at h'
    simp only [isDigitNd, isDigitC, Bool.or_eq_true, Bool.and_eq_true,
      decide_eq_true_eq] at hd
    omega

lemma getLast?_some_of_ne_nil {l : Str} (h : l ≠ []) :
    ∃ c, l.getLast? = some c := by
  have := List.getLast?_isSome.mpr h
  exact Option.isSome_iff_exists.mp this

lemma getLast?_append_right {a b : Str} (h : b ≠ []) :
    (a ++ b).getLast? = b.getLast? := by
  obtain ⟨c, hc⟩ := getLast?_some_of_ne_nil h
  rw [List.getLast?_append, hc]
  rfl

lemma getLast?_cons_of_ne_nil {c : Char} {l : Str} (h : l ≠ []) :
    (c :: l).getLast? = l.getLast? := by
  obtain ⟨x, hx⟩ := getLast?_some_of_ne_nil h
  rw [List.getLast?_cons, hx]
  simp

lemma getLast?_mem {l : Str} {c : Char} (h : l.getLast? = some c) : c ∈ l := by
  obtain ⟨ys, hys⟩ := List.getLast?_eq_some_iff.mp h
  subst hys
  simp

/-- The left side of an occurrence is free: if the prefix before the match
is empty, the scanner was not just past a word character; otherwise the
prefix's last character is not a word character. -/
def leftFree (C : RegexClasses) (prevW : Bool) (a : Str) : Prop :=
  (a = [] → prevW = false) ∧ ∀ c, a.getLast? = some c → C.isWord c = false

/-- An occurrence of the candidate `ls-ds` inside `s` whose boundaries are
free of word characters, `prevW` telling whether a word character
immediately precedes `s`. -/
def Occ (C : RegexClasses) (prevW : Bool) (s ls ds : Str) : Prop :=
  ∃ a b, s = a ++ (ls ++ '-' :: (ds ++ b)) ∧
    ls ≠ [] ∧ (∀ c ∈ ls, C.isAlpha c = true) ∧
    ds ≠ [] ∧ (∀ c ∈ ds, C.isDigit c = true) ∧
    leftFree C prevW a ∧ boundaryAfter C b = true

lemma occ_nil (C : RegexClasses) (prevW : Bool) (ls ds : Str) :
    ¬ Occ C prevW [] ls ds := by
  rintro ⟨a, b, hdec, hls, -, -, -, -, -⟩
  have := congrArg List.length hdec
  simp only [List.length_nil, List.length_append, List.length_cons] at this
  have : 1 ≤ ls.length := List.length_pos.mpr hls
  omega

/-- No rule-satisfying occurrence can start strictly inside a successful
match: a prefix `a` of positive length ending in a non-word character must
extend past the match's digits. -/
lemma occ_after_match {C : RegexClasses} (L : LawfulClasses C)
    {ls0 ds0 rest a ls ds b : Str}
    (hls0 : ls0 ≠ []) (halpha0 : ∀ c ∈ ls0, C.isAlpha c = true)
    (hds0 : ds0 ≠ []) (hdig0 : ∀ c ∈ ds0, C.isDigit c = true)
    (heq : ls0 ++ '-' :: (ds0 ++ rest) = a ++ (ls ++ '-' :: (ds ++ b)))
    (ha : a ≠ [])
    (hlast : ∀ c, a.getLast? = some c → C.isWord c = false)
    (hls : ls ≠ []) (halpha : ∀ c ∈ ls, C.isAlpha c = true) :
    ∃ a2, a = ls0 ++ '-' :: (ds0 ++ a2) ∧ a2 ≠ [] ∧
      rest = a2 ++ (ls ++ '-' :: (ds ++ b)) := by
  obtain ⟨la, hla⟩ := getLast?_some_of_ne_nil ha
  have hlaw : C.isWord la = false := hlast la hla
  rcases List.append_eq_append_iff.mp heq with ⟨a1, ha1, hx1⟩ | ⟨c1, hc1, hx2⟩
  · -- a = ls0 ++ a1 and '-' :: (ds0 ++ rest) = a1 ++ (ls ++ '-' :: (ds ++ b))
    cases a1 with
    | nil =>
      -- the tail equation forces the head of ls to be a hyphen
      obtain ⟨lc, ls', hlsc⟩ : ∃ lc ls', ls = lc :: ls' := by
        cases ls with
        | nil => exact absurd rfl hls
        | cons lc ls' => exact ⟨lc, ls', rfl⟩
      rw [hlsc] at hx1
      simp only [List.nil_append, List.cons_append] at hx1
      have hlc : lc = '-' := by
        injection hx1 with h1 _
        exact h1.symm
      have := halpha lc (by simp [hlsc])
      rw [hlc, L.hyphen_not_alpha] at this
      exact Bool.noConfusion this
    | cons c1 a2 =>
      simp only [List.cons_append] at hx1
      injection hx1 with hc1h hx1
      have hc1 : c1 = '-' := hc1h.symm
      -- ds0 ++ rest = a2 ++ (ls ++ '-' :: (ds ++ b))
      rcases List.append_eq_append_iff.mp hx1 with ⟨w, hw, hrest⟩ | ⟨u, hu, hur⟩
      · -- a2 = ds0 ++ w, rest = w ++ ...
        subst hc1
        have haeq : a = ls0 ++ '-' :: (ds0 ++ w) := by
          rw [ha1, hw]
        by_cases hwnil : w = []
        · exfalso
          subst hwnil
          obtain ⟨dc, hdc⟩ := getLast?_some_of_ne_nil hds0
          have : a.getLast? = some dc := by
            rw [haeq]
            rw [getLast?_append_right (by simp : ('-' :: (ds0 ++ []) : Str) ≠ [])]
            rw [getLast?_cons_of_ne_nil (by simpa using hds0)]
            simpa using hdc
          rw [this] at hla
          injection hla with hla
          subst hla
          rw [L.digit_word dc (hdig0 dc (getLast?_mem hdc))] at hlaw
          exact Bool.noConfusion hlaw
        · exact ⟨w, haeq, hwnil, hrest⟩
      · -- ds0 = a2 ++ u and ls ++ '-' :: (ds ++ b) = u ++ rest
        exfalso
        cases u with
        | nil =>
          subst hc1
          have haeq : a = ls0 ++ '-' :: ds0 := by
            rw [ha1, hu]
            simp
          obtain ⟨dc, hdc⟩ := getLast?_some_of_ne_nil hds0
          have : a.getLast? = some dc := by
            rw [haeq]
            rw [getLast?_append_right (by simp : ('-' :: ds0 : Str) ≠ [])]
            rw [getLast?_cons_of_ne_nil hds0]
            exact hdc
          rw [this] at hla
          injection hla with hla
          subst hla
          rw [L.digit_word dc (hdig0 dc (getLast?_mem hdc))] at hlaw
          exact Bool.noConfusion hlaw
        | cons uc u' =>
          -- head of ls is a digit of ds0: impossible
          obtain ⟨lc, ls', hlsc⟩ : ∃ lc ls', ls = lc :: ls' := by
            cases ls with
            | nil => exact absurd rfl hls
            | cons lc ls' => exact ⟨lc, ls', rfl⟩
          rw [hlsc] at hur
          simp only [List.cons_append] at hur
          have hlcu : lc = uc := by
            have := congrArg List.head? hur
            simpa using this
          have hdigu : C.isDigit uc = true := hdig0 uc (by rw [hu]; simp)
          have halc : C.isAlpha lc = true := halpha lc (by simp [hlsc])
          rw [hlcu] at halc
          rw [L.alpha_not_digit uc halc] at hdigu
          exact Bool.noConfusion hdigu
  · -- ls0 = a ++ c1 : the last character of a is a letter, contradiction
    exfalso
    have hmem : la ∈ ls0 := by
      rw [hc1]
      exact List.mem_append_left _ (getLast?_mem hla)
    rw [L.alpha_word la (halpha0 la hmem)] at hlaw
    exact Bool.noConfusion hlaw

lemma scan_nil (C : RegexClasses) (prevW : Bool) :
    scanTickets C prevW [] = [] := rfl

lemma scan_cons_word (C : RegexClasses) (c : Char) (cs : Str) :
    scanTickets C true (c :: cs) = scanTickets C (C.isWord c) cs := rfl

lemma scan_cons_match {C : RegexClasses} {c : Char} {cs ls0 ds0 rest : Str}
    (h : tryMatch C (c :: cs) = some (ls0, ds0, rest)) :
    scanTickets C false (c :: cs) =
      (ls0, ds0) :: scanTickets C true rest := by
  have hr : rest.length ≤ cs.length := by
    have := tryMatch_rest_lt h
    simp only [List.length_cons] at this
    omega
  rw [scanTickets, scanTickets, List.length_cons, scanAux]
  simp only [if_neg (by simp : ¬ false = true), h]
  rw [scanAux_fuel C cs.length rest.length true rest hr le_rfl]

lemma scan_cons_nomatch {C : RegexClasses} {c : Char} {cs : Str}
    (h : tryMatch C (c :: cs) = none) :
    scanTickets C false (c :: cs) = scanTickets C (C.isWord c) cs := by
  rw [scanTickets, scanTickets, List.length_cons, scanAux]
  simp only [if_neg (by simp : ¬ false = true), h]

/-- Shifting an occurrence across the head character: an occurrence in
`c :: cs` is either a match anchored at the head (possible only when no
word character precedes), or an occurrence in `cs` whose left context is
the word-character status of `c`. -/
lemma occ_cons {C : RegexClasses} (L : LawfulClasses C) (prevW : Bool)
    (c : Char) (cs ls ds : Str) :
    Occ C prevW (c :: cs) ls ds ↔
      ((prevW = false ∧ ∃ rest, tryMatch C (c :: cs) = some (ls, ds, rest)) ∨
        Occ C (C.isWord c) cs ls ds) := by
  constructor
  · rintro ⟨a, b, hdec, hls, halpha, hds, hdig, ⟨hleft1, hleft2⟩, hb⟩
    cases a with
    | nil =>
      left
      refine ⟨hleft1 rfl, b, (tryMatch_eq_some L _ _ _ _).mpr
        ⟨by simpa using hdec, hls, halpha, hds, hdig, hb⟩⟩
    | cons c0 a' =>
      right
      simp only [List.cons_append] at hdec
      injection hdec with hh ht
      refine ⟨a', b, ht, hls, halpha, hds, hdig, ⟨?_, ?_⟩, hb⟩
      · intro ha'
        subst ha'
        rw [hh]
        exact hleft2 c0 (by simp)
      · intro x hx
        have ha' : a' ≠ [] := by
          intro h0
          subst h0
          simp at hx
        exact hleft2 x (by rw [getLast?_cons_of_ne_nil ha']; exact hx)
  · rintro (⟨hpw, rest, htm⟩ | ⟨a', b, hdec, hls, halpha, hds, hdig, ⟨hl1, hl2⟩, hb⟩)
    · obtain ⟨hdec, hls, halpha, hds, hdig, hb⟩ := tryMatch_decomp htm
      exact ⟨[], rest, by simpa using hdec, hls, halpha, hds, hdig,
        ⟨fun _ => hpw, fun x hx => by simp at hx⟩, hb⟩
    · refine ⟨c :: a', b, by rw [List.cons_append, hdec], hls, halpha, hds, hdig,
        ⟨by simp, ?_⟩, hb⟩
      intro x hx
      by_cases ha' : a' = []
      · subst ha'
        simp only [List.getLast?_singleton, Option.some.injEq] at hx
        subst hx
        exact hl1 rfl
      · rw [getLast?_cons_of_ne_nil ha'] at hx
        exact hl2 x hx

lemma scan_mem_aux {C : RegexClasses} (L : LawfulClasses C) :
    ∀ (n : Nat) (s : Str), s.length ≤ n →
    ∀ (prevW : Bool) (ls ds : Str),
      ((ls, ds) ∈ scanTickets C prevW s ↔ Occ C prevW s ls ds) := by
  intro n
  induction n with
  | zero =>
    intro s hs prevW ls ds
    have hnil : s = [] := List.eq_nil_of_length_eq_zero (Nat.le_zero.mp hs)
    subst hnil
    rw [scan_nil]
    constructor
    · intro h
      simp at h
    · intro h
      exact absurd h (occ_nil _ _ _ _)
  | succ n ih =>
    intro s hs prevW ls ds
    cases s with
    | nil =>
      rw [scan_nil]
      constructor
      · intro h
        simp at h
      · intro h
        exact absurd h (occ_nil _ _ _ _)
    | cons c cs =>
      have hcs : cs.length ≤ n := by
        simp only [List.length_cons] at hs
        omega
      cases prevW with
      | true =>
        rw [scan_cons_word, ih cs hcs, occ_cons L]
        simp
      | false =>
        cases htm : tryMatch C (c :: cs) with
        | none =>
          rw [scan_cons_nomatch htm, ih cs hcs, occ_cons L]
          simp [htm]
        | some triple =>
          obtain ⟨ls0, ds0, rest⟩ := triple
          obtain ⟨hdec0, hls0, halpha0, hds0, hdig0, hb0⟩ :=
            tryMatch_decomp htm
          have hrest : rest.length ≤ n := by
            have := tryMatch_rest_lt htm
            simp only [List.length_cons] at this
            omega
          rw [scan_cons_match htm, List.mem_cons, ih rest hrest]
          constructor
          · rintro (heq | hocc)
            · injection heq with h1 h2
              subst h1
              subst h2
              exact ⟨[], rest, by simpa using hdec0, hls0, halpha0, hds0, hdig0,
                ⟨fun _ => rfl, fun x hx => by simp at hx⟩, hb0⟩
            · obtain ⟨a', b, hdecr, hls, halpha, hds, hdig, ⟨hl1, hl2⟩, hb⟩ := hocc
              have ha' : a' ≠ [] := fun h0 => Bool.noConfusion (hl1 h0)
              refine ⟨ls0 ++ '-' :: (ds0 ++ a'), b, ?_, hls, halpha, hds, hdig,
                ⟨fun _ => rfl, ?_⟩, hb⟩
              · rw [hdec0, hdecr]
                simp
              · intro x hx
                rw [getLast?_append_right
                    (by simp : ('-' :: (ds0 ++ a') : Str) ≠ []),
                  getLast?_cons_of_ne_nil (by simp [ha'] : ds0 ++ a' ≠ []),
                  getLast?_append_right ha'] at hx
                exact hl2 x hx
          · rintro ⟨a, b, hdec, hls, halpha, hds, hdig, ⟨hleft1, hleft2⟩, hb⟩
            cases a with
            | nil =>
              have htm2 : tryMatch C (c :: cs) = some (ls, ds, b) :=
                (tryMatch_eq_some L _ _ _ _).mpr
                  ⟨by simpa using hdec, hls, halpha, hds, hdig, hb⟩
              rw [htm] at htm2
              injection htm2 with htm2
              injection htm2 with h1 htm3
              injection htm3 with h2 h3
              left
              rw [h1, h2]
            | cons c0 a0 =>
              have heq0 : ls0 ++ '-' :: (ds0 ++ rest) =
                  (c0 :: a0) ++ (ls ++ '-' :: (ds ++ b)) := by
                rw [← hdec0]
                exact hdec
              obtain ⟨a2, ha2eq, ha2ne, hrest2⟩ := occ_after_match L hls0 halpha0
                hds0 hdig0 heq0 (by simp) hleft2 hls halpha
              right
              refine ⟨a2, b, hrest2, hls, halpha, hds, hdig,
                ⟨fun h0 => absurd h0 ha2ne, ?_⟩, hb⟩
              intro x hx
              apply hleft2 x
              rw [ha2eq, getLast?_append_right
                  (by simp : ('-' :: (ds0 ++ a2) : Str) ≠ []),
                getLast?_cons_of_ne_nil (by simp [ha2ne] : ds0 ++ a2 ≠ []),
                getLast?_append_right ha2ne]
              exact hx

/-- Membership of a candidate in the scanner's output is exactly the
existence of a boundary-free occurrence. -/
lemma scan_mem {C : RegexClasses} (L : LawfulClasses C)
    (prevW : Bool) (s ls ds : Str) :
    (ls, ds) ∈ scanTickets C prevW s ↔ Occ C prevW s ls ds :=
  scan_mem_aux L s.length s le_rfl prevW ls ds

lemma strLt_irrefl : ∀ s : Str, strLt s s = false := by
  intro s
  induction s with
  | nil => rfl
  | cons c cs ih => simp [strLt, ih]

lemma strLt_ne {a b : Str} (h : strLt a b = true) : a ≠ b := by
  intro he
  subst he
  rw [strLt_irrefl] at h
  exact Bool.noConfusion h

lemma strLt_trans : ∀ {a b c : Str},
    strLt a b = true → strLt b c = true → strLt a c = true := by
  intro a
  induction a with
  | nil =>
    intro b c hab hbc
    cases b with
    | nil => simp [strLt] at hab
    | cons y ys =>
      cases c with
      | nil => simp [strLt] at hbc
      | cons z zs => rfl
  | cons x xs ih =>
    intro b c hab hbc
    cases b with
    | nil => simp [strLt] at hab
    | cons y ys =>
      cases c with
      | nil => simp [strLt] at hbc
      | cons z zs =>
        simp only [strLt, Bool.or_eq_true, Bool.and_eq_true,
          decide_eq_true_eq] at hab hbc ⊢
        rcases hab with hab | ⟨hab, hab2⟩ <;> rcases hbc with hbc | ⟨hbc, hbc2⟩
        · exact Or.inl (lt_trans hab hbc)
        · exact Or.inl (hbc ▸ hab)
        · exact Or.inl (hab ▸ hbc)
        · exact Or.inr ⟨hab.trans hbc, ih hab2 hbc2⟩

lemma strLt_trichotomy (a b : Str) :
    strLt a b = true ∨ a = b ∨ strLt b a = true := by
  induction a generalizing b with
  | nil =>
    cases b with
    | nil => exact Or.inr (Or.inl rfl)
    | cons y ys => exact Or.inl rfl
  | cons x xs ih =>
    cases b with
    | nil => exact Or.inr (Or.inr rfl)
    | cons y ys =>
      rcases lt_trichotomy x y with hxy | hxy | hxy
      · exact Or.inl (by simp [strLt, hxy])
      · subst hxy
        rcases ih ys with h | h | h
        · exact Or.inl (by simp [strLt, h])
        · exact Or.inr (Or.inl (by rw [h]))
        · exact Or.inr (Or.inr (by simp [strLt, h]))
      · exact Or.inr (Or.inr (by simp [strLt, hxy]))

/-- The strict sortedness invariant on ticket lists. -/
def SortedStrict (l : List Str) : Prop :=
  l.Pairwise fun u v => strLt u v = true

lemma mem_insertTicket {z x : Str} : ∀ {l : List Str},
    z ∈ insertTicket x l ↔ z = x ∨ z ∈ l := by
  intro l
  induction l with
  | nil => simp [insertTicket]
  | cons y ys ih =>
    rw [insertTicket]
    by_cases h1 : strLt x y = true
    · rw [if_pos h1]
      exact List.mem_cons
    · rw [if_neg h1]
      by_cases h2 : x = y
      · rw [if_pos h2]
        subst h2
        simp only [List.mem_cons]
        tauto
      · rw [if_neg h2]
        simp only [List.mem_cons, ih]
        tauto

lemma insertTicket_sorted {x : Str} : ∀ {l : List Str}, SortedStrict l →
    SortedStrict (insertTicket x l) := by
  intro l
  induction l with
  | nil =>
    intro _
    simp [insertTicket, SortedStrict]
  | cons y ys ih =>
    intro hsort
    rw [SortedStrict, List.pairwise_cons] at hsort
    obtain ⟨hy, hys⟩ := hsort
    by_cases h1 : strLt x y = true
    · rw [insertTicket, if_pos h1, SortedStrict, List.pairwise_cons]
      refine ⟨?_, List.pairwise_cons.mpr ⟨hy, hys⟩⟩
      intro z hz
      rcases List.mem_cons.mp hz with hz | hz
      · subst hz
        exact h1
      · exact strLt_trans h1 (hy z hz)
    · by_cases h2 : x = y
      · rw [insertTicket, if_neg h1, if_pos h2, SortedStrict, List.pairwise_cons]
        exact ⟨hy, hys⟩
      · rw [insertTicket, if_neg h1, if_neg h2, SortedStrict, List.pairwise_cons]
        refine ⟨?_, ih hys⟩
        intro z hz
        rcases mem_insertTicket.mp hz with hz | hz
        · subst hz
          rcases strLt_trichotomy z y with h | h | h
          · exact absurd h h1
          · exact absurd h h2
          · exact h
        · exact hy z hz

lemma sortedSet_aux_mem {z : Str} : ∀ (l acc : List Str),
    z ∈ l.foldl (fun acc x => insertTicket x acc) acc ↔ z ∈ acc ∨ z ∈ l := by
  intro l
  induction l with
  | nil => simp
  | cons x xs ih =>
    intro acc
    rw [List.foldl_cons, ih]
    rw [mem_insertTicket]
    simp only [List.mem_cons]
    tauto

lemma sortedSet_aux_sorted : ∀ (l acc : List Str), SortedStrict acc →
    SortedStrict (l.foldl (fun acc x => insertTicket x acc) acc) := by
  intro l
  induction l with
  | nil =>
    intro acc h
    simpa using h
  | cons x xs ih =>
    intro acc h
    rw [List.foldl_cons]
    exact ih _ (insertTicket_sorted h)

lemma sortedSet_mem {z : Str} {l : List Str} :
    z ∈ sortedSet l ↔ z ∈ l := by
  rw [sortedSet, sortedSet_aux_mem]
  simp

lemma sortedSet_sorted (l : List Str) : SortedStrict (sortedSet l) :=
  sortedSet_aux_sorted l [] (by simp [SortedStrict])

lemma sortedSet_nodup (l : List Str) : (sortedSet l).Nodup :=
  (sortedSet_sorted l).imp fun h => strLt_ne h

/-- ASCII uppercase letter: the form the original claim asserts of every
character of an output prefix. -/
def isUpperC (c : Char) : Bool :=
  65 ≤ c.toNat && c.toNat ≤ 90

lemma boundaryAfter_iff (C : RegexClasses) (b : Str) :
    boundaryAfter C b = true ↔ ∀ c, b.head? = some c → C.isWord c = false := by
  unfold boundaryAfter
  cases b with
  | nil => simp
  | cons c cs =>
    simp only [List.head?_cons, Bool.not_eq_true', Option.some.injEq]
    constructor
    · intro h x hx
      rw [← hx]
      exact h
    · intro h
      exact h c rfl

/-- ASCII word character: the class over which the specification's
boundary rule is stated. -/
def isAsciiWordC (c : Char) : Bool :=
  isAlphaC c || isDigitC c || c.toNat = 95

/-- The specification's boundary rule, verbatim: an occurrence of the
candidate `ls-ds` inside `s` such that no ASCII word character precedes
the letters and no ASCII word character follows the digits. -/
def AsciiRuleOcc (s ls ds : Str) : Prop :=
  ∃ a b, s = a ++ (ls ++ '-' :: (ds ++ b)) ∧
    ls ≠ [] ∧ (∀ c ∈ ls, isAlphaC c = true) ∧
    ds ≠ [] ∧ (∀ c ∈ ds, isDigitC c = true) ∧
    (∀ c, a.getLast? = some c → isAsciiWordC c = false) ∧
    (∀ c, b.head? = some c → isAsciiWordC c = false)

/-- C6 counterexample: the claim's rule is stated over ASCII word
characters, but the engine's boundary `\b` is Unicode-aware.  In the
message `"ABC-123é"` the candidate `ABC-123` has no ASCII word character
on either side (`é` is not ASCII), so the claim requires it to be
retained; the scanner drops it because `é` is a word character for `\b`,
and the extractor returns nothing. -/
theorem ticket_match_ascii_rule_fails :
    AsciiRuleOcc ("ABC-123é".toList) ("ABC".toList) ("123".toList) ∧
      ("ABC".toList, "123".toList) ∉
        scanTickets modelClasses false ("ABC-123é".toList) ∧
      extractTickets modelClasses ["ABC-123é".toList] [] = [] :=
  ⟨⟨[], ['é'], by decide, by decide, by decide, by decide, by decide,
    fun c hc => by simp at hc, by decide⟩, by decide, by decide⟩

/-- C6 (amended): a candidate letters-hyphen-digits substring is retained
as a match exactly when no word character — in the engine's Unicode-aware
sense of `\b` — precedes the letters and none follows the digits.  The
theorem holds for every classification of letters, digits and word
characters satisfying `LawfulClasses` (facts true of the engine's Unicode
tables), so in particular for the engine's own classes; on ASCII text
those coincide with the ASCII classes of the original claim. -/
theorem ticket_match_boundary_rule (C : RegexClasses) (L : LawfulClasses C)
    (s ls ds : Str) :
    (ls, ds) ∈ scanTickets C false s ↔
      ∃ a b, s = a ++ (ls ++ '-' :: (ds ++ b)) ∧
        ls ≠ [] ∧ (∀ c ∈ ls, C.isAlpha c = true) ∧
        ds ≠ [] ∧ (∀ c ∈ ds, C.isDigit c = true) ∧
        (∀ c, a.getLast? = some c → C.isWord c = false) ∧
        (∀ c, b.head? = some c → C.isWord c = false) := by
  rw [scan_mem L]
  constructor
  · rintro ⟨a, b, h1, h2, h3, h4, h5, ⟨-, h6⟩, h7⟩
    exact ⟨a, b, h1, h2, h3, h4, h5, h6, (boundaryAfter_iff C b).mp h7⟩
  · rintro ⟨a, b, h1, h2, h3, h4, h5, h6, h7⟩
    exact ⟨a, b, h1, h2, h3, h4, h5, ⟨fun _ => rfl, h6⟩,
      (boundaryAfter_iff C b).mpr h7⟩

/-- C6 witness: the amended rule applied at the concrete classes, on the
message `ſ-1 x` whose letter is the (non-ASCII) long s of the
case-insensitive class. -/
theorem ticket_match_boundary_rule_witness :
    ([Char.ofNat 0x17F], ['1']) ∈
      scanTickets modelClasses false (Char.ofNat 0x17F :: "-1 x".toList) :=
  (ticket_match_boundary_rule modelClasses lawful_modelClasses _ _ _).mpr
    ⟨[], " x".toList, by decide, by decide, by decide, by decide, by decide,
      fun c hc => by simp at hc, by decide⟩

lemma mem_extractTickets {C : RegexClasses} {M D : List Str} {t : Str} :
    t ∈ extractTickets C M D ↔
      ∃ m ∈ M, ∃ ls ds, (ls, ds) ∈ scanTickets C false m ∧
        ¬ ((D.map fun d => d.map toUpperCI).contains
            (ls.map toUpperCI) = true) ∧
        t = ticketOf ls ds := by
  unfold extractTickets
  rw [sortedSet_mem]
  simp only [List.mem_flatMap, List.mem_filterMap]
  constructor
  · rintro ⟨m, hm, ⟨ls, ds⟩, hscan, hf⟩
    by_cases hc : (D.map fun d => d.map toUpperCI).contains
        (ls.map toUpperCI) = true
    · rw [if_pos hc] at hf
      exact absurd hf (by simp)
    · rw [if_neg hc] at hf
      injection hf with hf
      exact ⟨m, hm, ls, ds, hscan, hc, hf.symm⟩
  · rintro ⟨m, hm, ls, ds, hscan, hc, ht⟩
    refine ⟨m, hm, ⟨ls, ds⟩, hscan, ?_⟩
    rw [if_neg hc, ht]

/-- C7 counterexample: the claim asserts that every output string is
ASCII uppercase letters, a hyphen, digits — but `(?i)[a-z]` is Unicode
case-insensitive, so the Kelvin sign `K` (U+212A, which case-folds to
`k` and is its own uppercase) is captured as a letter: on the message
`"K-1"` the extractor emits the ticket `"K-1"`, whose one-letter prefix
is not an ASCII uppercase letter. -/
theorem extract_tickets_ascii_form_counterexample :
    extractTickets modelClasses [[Char.ofNat 0x212A, '-', '1']] [] =
      [[Char.ofNat 0x212A, '-', '1']] ∧
    (([Char.ofNat 0x212A, '-', '1'] : Str).takeWhile
        (fun c => !(c = '-' : Bool))).all isUpperC = false := by
  exact ⟨by decide, by decide⟩

/-- C7 (amended): extractor normalisation and output form, for every
classification satisfying the engine facts.  Every extracted ticket is
the uppercased letters of a capture (uppercased by `to_uppercase`, which
on the case-insensitive letter class means ASCII uppercasing, `ſ ↦ S`,
and the Kelvin sign unchanged), a hyphen, and the capture's digits, and
its uppercased prefix is not in the uppercased denylist; the output has
no duplicates and is sorted; and the result is invariant under any
change of the denylist that preserves its uppercased form — in
particular under ASCII case changes. -/
theorem extract_tickets_normalized (C : RegexClasses) (L : LawfulClasses C)
    (M D : List Str) :
    (∀ t ∈ extractTickets C M D, ∃ ls ds, t = ls.map toUpperCI ++ '-' :: ds ∧
        ls ≠ [] ∧ (∀ c ∈ ls, C.isAlpha c = true) ∧
        ds ≠ [] ∧ (∀ c ∈ ds, C.isDigit c = true) ∧
        ¬ ((D.map fun d => d.map toUpperCI).contains
            (ls.map toUpperCI) = true)) ∧
    (extractTickets C M D).Nodup ∧
    SortedStrict (extractTickets C M D) ∧
    (∀ D2 : List Str, (D.map fun d => d.map toUpperCI) =
        (D2.map fun d => d.map toUpperCI) →
      extractTickets C M D = extractTickets C M D2) := by
  refine ⟨?_, sortedSet_nodup _, sortedSet_sorted _, ?_⟩
  · intro t ht
    obtain ⟨m, -, ls, ds, hscan, hdeny, hform⟩ := mem_extractTickets.mp ht
    obtain ⟨-, -, -, hls, halpha, hds, hdig, -, -⟩ :=
      (scan_mem L false m ls ds).mp hscan
    exact ⟨ls, ds, hform, hls, halpha, hds, hdig, hdeny⟩
  · intro D2 hD
    unfold extractTickets
    rw [hD]

/-- C7 witness: the amended theorem applied at the concrete classes to
the spec's denylist scenario, its case-insensitivity conjunct discharged
at a concrete mixed-case denylist. -/
theorem extract_tickets_normalized_witness :
    ((["CWE".toList] : List Str).map fun d => d.map toUpperCI) =
        ((["cWe".toList] : List Str).map fun d => d.map toUpperCI) ∧
      extractTickets modelClasses
          ["CWE-22 review".toList, "ABC-1 work".toList] ["CWE".toList] =
        extractTickets modelClasses
          ["CWE-22 review".toList, "ABC-1 work".toList] ["cWe".toList] :=
  ⟨by decide,
    (extract_tickets_normalized modelClasses lawful_modelClasses
      ["CWE-22 review".toList, "ABC-1 work".toList]
      ["CWE".toList]).2.2.2 ["cWe".toList] (by decide)⟩

deriving instance DecidableEq for Except

/-- `pat` is a prefix of `s` (the primitive behind substring search). -/
def listStartsWith : Str → Str → Bool
  | [], _ => true
  | _ :: _, [] => false
  | p :: ps, c :: cs => p = c && listStartsWith ps cs

/-- `str::contains(pat)`: some suffix of `s` starts with `pat`. -/
def containsSub (s pat : Str) : Bool :=
  listStartsWith pat s ||
    (match s with
     | [] => false
     | _ :: cs => containsSub cs pat)

/-- `str::find(pat)`: index of the first occurrence of `pat` in `s`
(character index; equal to the byte index on ASCII text). -/
def findSub (s pat : Str) : Option Nat :=
  if listStartsWith pat s then some 0
  else
    match s with
    | [] => none
    | _ :: cs => (findSub cs pat).map (· + 1)

/-- A commit, from `models.rs`. -/
structure Commit where
  message : Str
  author : Str
  timestamp : Int
  deriving DecidableEq

/-- Stable descending insertion by commit timestamp, the model of
`sort_by(|a, b| b.timestamp.cmp(&a.timestamp))`. -/
def insertDesc (c : Commit) : List Commit → List Commit
  | [] => [c]
  | x :: xs =>
    if x.timestamp < c.timestamp then c :: x :: xs else x :: insertDesc c xs

/-- Sort commits most recent first. -/
def sortCommitsDesc (l : List Commit) : List Commit :=
  l.foldr insertDesc []

/-- `get_commits_from_repositories` from `git.rs`: each repository's scan
result is consumed in order; failures are logged and skipped — for every
repository, including a sole one — and the surviving commits are sorted
by timestamp descending.  The function never returns an error. -/
def getCommitsFromRepositories
    (repoResults : List (Except HErr (List Commit))) :
    Except HErr (List Commit) :=
  let allCommits := repoResults.foldl
    (fun acc r =>
      match r with
      | .ok commits => acc ++ commits
      | .error _ => acc) []
  .ok (sortCommitsDesc allCommits)

/-- A project reference inside a time entry, from `models.rs`. -/
structure ProjectInfo where
  id : Nat
  name : Str
  deriving DecidableEq

/-- A task reference inside a time entry, from `models.rs`. -/
structure TaskInfo where
  id : Nat
  name : Str
  deriving DecidableEq

/-- A Harvest time entry, from `models.rs`.  `u64` ids are `Nat` (no
arithmetic is performed on them). -/
structure TimeEntry where
  id : Nat
  spentDate : Str
  hours : Option FVal
  notes : Option Str
  isRunning : Bool
  project : Option ProjectInfo
  task : Option TaskInfo
  startedTime : Option Str
  deriving DecidableEq

/-- The execution flags threaded through Time-service operations, from
`models.rs`. -/
structure Context where
  dryRun : Bool
  autoStart : Bool
  autoStop : Bool
  quiet : Bool
  verbose : Bool
  deriving DecidableEq

/-- The `{id, group_id, permalink}` triple cross-linking a time entry to a
ticket, from `models.rs`. -/
structure ExternalReference where
  refId : Str
  groupId : Str
  permalink : Str
  deriving DecidableEq

/-- Body of `POST /v2/time_entries` for a running timer, from `models.rs`. -/
structure CreateTimeEntryRequest where
  projectId : Option Nat
  taskId : Option Nat
  spentDate : Str
  notes : Str
  externalReference : Option ExternalReference
  deriving DecidableEq

/-- Body of `POST /v2/time_entries` for a stopped entry, from `models.rs`. -/
structure CreateStoppedTimeEntryRequest where
  projectId : Nat
  taskId : Nat
  spentDate : Str
  notes : Str
  hours : FVal
  deriving DecidableEq

/-- A mutating HTTP call against the Time service. -/
inductive HttpWrite where
  | postCreate (req : CreateTimeEntryRequest)
  | postCreateStopped (req : CreateStoppedTimeEntryRequest)
  | patchStop (entryId : Nat)
  deriving DecidableEq

/-- The HTTP transport for mutating calls, as an oracle from the request
to the parsed response. -/
abbrev HttpOracle := HttpWrite → Except HErr TimeEntry

/-- `create_time_entry` from `harvest.rs`: build the request with notes
`"{KEY} - {SUMMARY}"` and the `jira` external reference; in dry-run skip
the HTTP call and return the synthesized entry with `id = 0`; otherwise
issue the POST.  Returns the list of mutating calls made alongside the
result. -/
def createTimeEntry (cfgProjectId cfgTaskId : Option Nat) (today : Str)
    (jiraTicket description jiraUrl : Str) (ctx : Context) (http : HttpOracle) :
    List HttpWrite × Except HErr TimeEntry :=
  let notes := jiraTicket ++ " - ".toList ++ description
  let request : CreateTimeEntryRequest :=
    { projectId := cfgProjectId, taskId := cfgTaskId, spentDate := today,
      notes := notes,
      externalReference := some
        { refId := jiraTicket, groupId := "jira".toList, permalink := jiraUrl } }
  if ctx.dryRun then
    ([], .ok { id := 0, spentDate := request.spentDate,
               hours := some (.finite 0), notes := some request.notes,
               isRunning := true, project := none, task := none,
               startedTime := none })
  else
    ([.postCreate request], http (.postCreate request))

/-- `stop_time_entry` from `harvest.rs`: in dry-run skip the HTTP call and
return a synthesized stopped entry carrying the *same id* that was asked
to stop; otherwise issue the PATCH. -/
def stopTimeEntry (entryId : Nat) (today : Str) (ctx : Context)
    (http : HttpOracle) : List HttpWrite × Except HErr TimeEntry :=
  if ctx.dryRun then
    ([], .ok { id := entryId, spentDate := today, hours := some (.finite 0),
               notes := none, isRunning := false, project := none,
               task := none, startedTime := none })
  else
    ([.patchStop entryId], http (.patchStop entryId))

/-- `create_stopped_time_entry` from `harvest.rs`: in dry-run skip the
HTTP call and return the synthesized entry with `id = 0`; otherwise issue
the POST. -/
def createStoppedTimeEntry (description : Str) (projectId taskId : Nat)
    (hours : FVal) (today : Str) (ctx : Context) (http : HttpOracle) :
    List HttpWrite × Except HErr TimeEntry :=
  let request : CreateStoppedTimeEntryRequest :=
    { projectId := projectId, taskId := taskId, spentDate := today,
      notes := description, hours := hours }
  if ctx.dryRun then
    ([], .ok { id := 0, spentDate := request.spentDate,
               hours := some request.hours, notes := some request.notes,
               isRunning := false, project := none, task := none,
               startedTime := none })
  else
    ([.postCreateStopped request], http (.postCreateStopped request))

/-- A ticket, from `models.rs`. -/
structure Ticket where
  key : Str
  summary : Str
  status : Option Str
  deriving DecidableEq

/-- `get_issues` from `jira.rs`: fetch each key; on success keep the
ticket (whose status the service always reports); on failure append a
placeholder ticket with the key and no status (its summary's error text is
not modelled).  The batch never aborts. -/
def getIssues (fetch : Str → Except HErr (Str × Str)) (keys : List Str) :
    List Ticket :=
  keys.map fun key =>
    match fetch key with
    | .ok (summary, statusName) =>
      { key := key, summary := summary, status := some statusName }
    | .error _ =>
      { key := key, summary := "(Failed to fetch)".toList, status := none }

/-- `get_ticket_url` from `jira.rs`: trim trailing slashes from the base
URL and append `/browse/{key}`. -/
def getTicketUrl (baseUrl key : Str) : Str :=
  (baseUrl.reverse.dropWhile (fun c => c = '/')).reverse ++
    "/browse/".toList ++ key

/-- Outcome of the ticket-selection step of `run_sync`. -/
inductive Selection where
  | taken (t : Ticket)
  | prompted
  | panicked
  deriving DecidableEq

/-- The selection policy of `run_sync` (main.rs): take `tickets[0]` when
the list has exactly one ticket and `auto_select_single` is set; else take
`tickets[0]` when the list has exactly one ticket *or* `auto_start` is
set; otherwise prompt the user.  Indexing an empty vector panics. -/
def selectTicket (tickets : List Ticket) (autoSelectSingle autoStart : Bool) :
    Selection :=
  if tickets.length = 1 && autoSelectSingle then
    match tickets.head? with
    | some t => .taken t
    | none => .panicked
  else if tickets.length = 1 || autoStart then
    match tickets.head? with
    | some t => .taken t
    | none => .panicked
  else .prompted

/-- The environment observed by one run of the sync command: configuration
values, and oracles for the commit scan, the Jira fetches, the Harvest
reads, the prompts and the HTTP transport. -/
structure SyncEnv where
  commits : List Commit
  denylist : List Str
  autoSelectSingle : Bool
  cfgProjectId : Option Nat
  cfgTaskId : Option Nat
  jiraBaseUrl : Str
  today : Str
  fetchIssue : Str → Except HErr (Str × Str)
  runningTimer : Except HErr (Option TimeEntry)
  promptSelect : List Ticket → Except HErr Ticket
  confirmStop : Except HErr Bool
  http : HttpOracle

/-- Outcome of the front half of `run_sync` (through ticket selection). -/
inductive SyncPhase1 where
  | earlyExit
  | failed (e : HErr)
  | panicked
  | selected (t : Ticket)
  deriving DecidableEq

/-- The front half of `run_sync` (main.rs): exit successfully when there
are no commits or no tickets survive the denylist; otherwise fetch the
tickets and run the selection policy, consulting the prompt oracle when
the policy prompts. -/
def syncSelect (env : SyncEnv) (ctx : Context) : SyncPhase1 :=
  if env.commits = [] then .earlyExit
  else
    let messages := env.commits.map Commit.message
    let keys := extractTickets modelClasses messages env.denylist
    if keys = [] then .earlyExit
    else
      let tickets := getIssues env.fetchIssue keys
      match selectTicket tickets env.autoSelectSingle ctx.autoStart with
      | .taken t => .selected t
      | .panicked => .panicked
      | .prompted =>
        match env.promptSelect tickets with
        | .ok t => .selected t
        | .error e => .failed e

/-- Result of a full run of the sync command. -/
inductive SyncResult where
  | ok
  | err (e : HErr)
  | panicked
  deriving DecidableEq

/-- The back half of `run_sync` once a ticket is selected: reconcile with
the running timer — if its notes contain the selected key, do nothing; if
a different timer runs, stop it (after `auto_stop` or a confirmation,
refusal exiting successfully) — then create the new running entry. -/
def syncReconcile (env : SyncEnv) (ctx : Context) (t : Ticket) :
    SyncResult × List HttpWrite :=
  let createStep : SyncResult × List HttpWrite :=
    let jiraUrl := getTicketUrl env.jiraBaseUrl t.key
    let (ws, res) := createTimeEntry env.cfgProjectId env.cfgTaskId env.today
      t.key t.summary jiraUrl ctx env.http
    match res with
    | .ok _ => (.ok, ws)
    | .error e => (.err e, ws)
  let stopThenCreate (timer : TimeEntry) : SyncResult × List HttpWrite :=
    match (if ctx.autoStop then .ok true else env.confirmStop) with
    | .error e => (.err e, [])
    | .ok false => (.ok, [])
    | .ok true =>
      let (ws1, res1) := stopTimeEntry timer.id env.today ctx env.http
      match res1 with
      | .error e => (.err e, ws1)
      | .ok _ =>
        let (res2, ws2) := createStep
        (res2, ws1 ++ ws2)
  match env.runningTimer with
  | .error e => (.err e, [])
  | .ok (some timer) =>
    match timer.notes with
    | some notes =>
      if containsSub notes t.key then (.ok, [])
      else stopThenCreate timer
    | none => stopThenCreate timer
  | .ok none => createStep

/-- One run of the sync command, returning its result and the mutating
Time-service calls it issued. -/
def runSync (env : SyncEnv) (ctx : Context) : SyncResult × List HttpWrite :=
  match syncSelect env ctx with
  | .earlyExit => (.ok, [])
  | .panicked => (.panicked, [])
  | .failed e => (.err e, [])
  | .selected t => syncReconcile env ctx t

/-- A usage record, from `usage.rs` (`last_used` as an abstract instant). -/
structure UsageRecord where
  lastUsed : Int
  useCount : Nat
  deriving DecidableEq

/-- The usage cache document, from `usage.rs`. -/
structure UsageCache where
  version : Nat
  projects : List (Nat × UsageRecord)
  tasks : List (Nat × UsageRecord)
  deriving DecidableEq

/-- `UsageCache::new`: the empty cache at the current file version (1). -/
def UsageCache.new : UsageCache :=
  { version := 1, projects := [], tasks := [] }

/-- The file-system environment the cache loader observes: the config
directory (if determinable), file reads, JSON parsing, existence checks. -/
structure FsEnv where
  configDir : Option Str
  readFile : Str → Except HErr Str
  parseJson : Str → Except HErr UsageCache
  fileExists : Str → Bool

/-- `usage_file_path` from `usage.rs`: `<config-dir>/harv/usage.json`, a
`Config` error when the config directory cannot be determined. -/
def usageFilePath (env : FsEnv) : Except HErr Str :=
  match env.configDir with
  | none => .error .config
  | some d => .ok (d ++ "/harv/usage.json".toList)

/-- `UsageCache::load_internal`: resolve the path, read the file, parse
the JSON, reject a version newer than 1. -/
def loadInternal (env : FsEnv) : Except HErr UsageCache := do
  let path ← usageFilePath env
  let contents ← env.readFile path
  let cache ← env.parseJson contents
  if cache.version > 1 then .error .config
  else pure cache

/-- `UsageCache::load`: on success return the cache; on failure resolve
the path again (the `usage_file_path()?` in the error branch — whose `?`
can itself propagate an error), consult `path.exists()` only for the log
message, and return the empty cache. -/
def UsageCache.load (env : FsEnv) : Except HErr UsageCache :=
  match loadInternal env with
  | .ok cache => .ok cache
  | .error _ =>
    match usageFilePath env with
    | .error e => .error e
    | .ok path =>
      let _ := env.fileExists path
      .ok UsageCache.new

/-- An entry of the AI reply document, from `ai/mod.rs`. -/
structure AiTimeEntry where
  description : Str
  projectId : Nat
  taskId : Nat
  hours : FVal
  confidence : Option FVal
  deriving DecidableEq

/-- A validated proposed entry, from `models.rs`. -/
structure ProposedTimeEntry where
  description : Str
  projectId : Nat
  taskId : Nat
  hours : FVal
  confidence : Option FVal
  deriving DecidableEq

/-- A computation that may die with a panic (`Option::unwrap` on `None`). -/
inductive PanicOr (α : Type) where
  | panic
  | value (a : α)
  deriving DecidableEq

/-- The fence-stripping preamble of `parse_response` (`ai/mod.rs`): when
the text contains a ` ```json ` marker, slice from just past it up to the
next ` ``` ` — `unwrap`ping the second `find`, which panics when no
closing fence follows; likewise for a bare ` ``` ` fence; otherwise keep
the text as is. -/
def extractJsonText (s : Str) : PanicOr Str :=
  if containsSub s ("```json".toList) then
    match findSub s ("```json".toList) with
    | none => .panic
    | some idx =>
      let after := s.drop (idx + 7)
      match findSub after ("```".toList) with
      | none => .panic
      | some e2 => .value (after.take e2)
  else if containsSub s ("```".toList) then
    match findSub s ("```".toList) with
    | none => .panic
    | some idx =>
      let after := s.drop (idx + 3)
      match findSub after ("```".toList) with
      | none => .panic
      | some e2 => .value (after.take e2)
  else .value s

/-- `parse_response` from `ai/mod.rs`, parametrised by the JSON decoding
of the `serde` layer: strip fences (possibly panicking), decode, reject
any entry whose hours are outside `(0, 24]` or whose description trims to
empty, and convert the survivors. -/
def parseResponse (jsonParse : Str → Except HErr (List AiTimeEntry))
    (s : Str) : PanicOr (Except HErr (List ProposedTimeEntry)) :=
  match extractJsonText s with
  | .panic => .panic
  | .value jsonText =>
    .value (do
      let entries ← jsonParse (trim jsonText)
      match entries.find? (fun e => e.hours.leZero || e.hours.gt24) with
      | some _ => throw .invalidEntry
      | none =>
        match entries.find? (fun e => decide (trim e.description = [])) with
        | some _ => throw .invalidEntry
        | none =>
          pure (entries.map fun e =>
            { description := e.description, projectId := e.projectId,
              taskId := e.taskId, hours := e.hours,
              confidence := e.confidence }))

/-- Truncation of a rational toward zero (the finite case of an `as i64`
float-to-integer cast). -/
def ratTrunc (q : ℚ) : ℤ :=
  Int.tdiv q.num (q.den : ℤ)

/-- `f64 * 100.0` in the float model. -/
def FVal.mul100 : FVal → FVal
  | .finite q => .finite (q * 100)
  | v => v

/-- The saturating `as i64` cast: `NaN` to 0, infinities and
out-of-range values to the nearest bound, finite values truncated
toward zero. -/
def FVal.toI64 : FVal → ℤ
  | .nan => 0
  | .inf => 2 ^ 63 - 1
  | .neginf => -(2 ^ 63)
  | .finite q =>
    if ((2 : ℚ) ^ 63) ≤ q then 2 ^ 63 - 1
    else if q ≤ -((2 : ℚ) ^ 63) then -(2 ^ 63)
    else ratTrunc q

/-- The deduplication key of `run_generate` (main.rs): description,
project id, task id, and `(hours * 100.0) as i64`. -/
def entryKey (e : ProposedTimeEntry) : Str × Nat × Nat × ℤ :=
  (e.description, e.projectId, e.taskId, (e.hours.mul100).toI64)

/-- The `retain` loop of `run_generate` with its `HashSet` of seen keys:
keep an entry exactly when its key has not been seen yet. -/
def dedupGo (seen : List (Str × Nat × Nat × ℤ)) :
    List ProposedTimeEntry → List ProposedTimeEntry
  | [] => []
  | e :: es =>
    if entryKey e ∈ seen then dedupGo seen es
    else e :: dedupGo (entryKey e :: seen) es

/-- Deduplication of the proposed entries, first occurrence kept. -/
def dedupEntries (l : List ProposedTimeEntry) : List ProposedTimeEntry :=
  dedupGo [] l

/-- A context with `dry_run` set and all other flags clear. -/
def dryCtx : Context :=
  { dryRun := true, autoStart := false, autoStop := false,
    quiet := false, verbose := false }

/-- A transport oracle that fails every call (dry-run paths never reach it). -/
def noHttp : HttpOracle := fun _ => .error .harvest

/-- C3 counterexample: the claim requires every dry-run surrogate to carry
`id = 0`, but `stop_time_entry`'s surrogate carries the id of the entry it
was asked to stop — here `5`. -/
theorem dry_run_stop_id_counterexample :
    (stopTimeEntry 5 ("2024-05-01".toList) dryCtx noHttp).1 = [] ∧
    (stopTimeEntry 5 ("2024-05-01".toList) dryCtx noHttp).2.toOption.map
      TimeEntry.id = some 5 ∧
    some (5 : Nat) ≠ some (0 : Nat) :=
  ⟨rfl, by decide, by decide⟩

/-- C3 (amended): with `dry_run` set, every mutating operation issues no
HTTP call and returns a synthesized successful `TimeEntry` whose fields
reflect the request; the two create operations return `id = 0`, while
`stop_time_entry` returns the id of the entry it was asked to stop. -/
theorem dry_run_surrogates (ctx : Context) (h : ctx.dryRun = true)
    (cfgP cfgT : Option Nat) (today key summary url descr : Str)
    (pid tid eid : Nat) (hours : FVal) (http : HttpOracle) :
    createTimeEntry cfgP cfgT today key summary url ctx http =
      ([], .ok { id := 0, spentDate := today, hours := some (.finite 0),
                 notes := some (key ++ " - ".toList ++ summary),
                 isRunning := true, project := none, task := none,
                 startedTime := none }) ∧
    createStoppedTimeEntry descr pid tid hours today ctx http =
      ([], .ok { id := 0, spentDate := today, hours := some hours,
                 notes := some descr, isRunning := false, project := none,
                 task := none, startedTime := none }) ∧
    stopTimeEntry eid today ctx http =
      ([], .ok { id := eid, spentDate := today, hours := some (.finite 0),
                 notes := none, isRunning := false, project := none,
                 task := none, startedTime := none }) := by
  refine ⟨?_, ?_, ?_⟩ <;>
    simp [createTimeEntry, createStoppedTimeEntry, stopTimeEntry, h]

/-- C3 witness: the amended theorem applied at concrete dry-run inputs. -/
theorem dry_run_surrogates_witness :
    dryCtx.dryRun = true ∧
    stopTimeEntry 7 ("2024-05-02".toList) dryCtx noHttp =
      ([], .ok { id := 7, spentDate := "2024-05-02".toList,
                 hours := some (.finite 0), notes := none, isRunning := false,
                 project := none, task := none, startedTime := none }) :=
  ⟨rfl, (dry_run_surrogates dryCtx rfl none none ("2024-05-02".toList)
    ("K".toList) ("s".toList) ("u".toList) ("d".toList) 1 2 7
    (.finite 0) noHttp).2.2⟩

/-- A concrete ticket for the selection counterexample. -/
def cexTicket : Ticket :=
  { key := "ABC-1".toList, summary := "s".toList, status := none }

/-- A second concrete ticket. -/
def cexTicket2 : Ticket :=
  { key := "DEF-2".toList, summary := "t".toList, status := none }

/-- C5 counterexample: with exactly one ticket and both flags off the
claim requires a prompt, but the code takes the ticket without prompting
(the `tickets.len() == 1 || ctx.auto_start` arm). -/
theorem sync_selection_single_no_flags_counterexample :
    selectTicket [cexTicket] false false = .taken cexTicket ∧
    selectTicket [cexTicket] false false ≠ .prompted :=
  ⟨by decide, by decide⟩

/-- C5 (amended): on a non-empty ticket list, the sync command takes a
ticket without prompting exactly when the list has exactly one ticket OR
`auto_start` is on — `auto_select_single` never changes the outcome — and
the ticket taken is the first of the list; in every other case the user
is prompted. -/
theorem sync_selection_policy (tickets : List Ticket) (s a : Bool)
    (h : tickets ≠ []) :
    (selectTicket tickets s a = .prompted ↔
      ¬ (tickets.length = 1 ∨ a = true)) ∧
    (∀ t, selectTicket tickets s a = .taken t ↔
      ((tickets.length = 1 ∨ a = true) ∧ tickets.head? = some t)) := by
  obtain ⟨t0, ts, rfl⟩ : ∃ t0 ts, tickets = t0 :: ts := by
    cases tickets with
    | nil => exact absurd rfl h
    | cons t0 ts => exact ⟨t0, ts, rfl⟩
  unfold selectTicket
  by_cases h1 : (t0 :: ts).length = 1
  · cases s <;> cases a <;>
      simp [h1, eq_comm]
  · have hts : ts ≠ [] := by
      intro h0
      subst h0
      simp at h1
    cases s <;> cases a <;>
      simp [h1, hts, eq_comm]

/-- C5 witness: the amended theorem applied to two tickets with
`auto_select_single` on and `auto_start` off — the user is prompted. -/
theorem sync_selection_policy_witness :
    ([cexTicket, cexTicket2] : List Ticket) ≠ [] ∧
    (selectTicket [cexTicket, cexTicket2] true false = .prompted ↔
      ¬ (([cexTicket, cexTicket2] : List Ticket).length = 1 ∨ false = true)) :=
  ⟨by decide, (sync_selection_policy [cexTicket, cexTicket2] true false
    (by decide)).1⟩

/-- C1: sync idempotency.  Whenever the selection phase picks a ticket, a
running timer exists, and the timer's notes contain the selected ticket
key as a substring, the sync command performs no mutating Time-service
call and terminates successfully. -/
theorem sync_idempotent (env : SyncEnv) (ctx : Context) (t : Ticket)
    (timer : TimeEntry) (n : Str)
    (hsel : syncSelect env ctx = .selected t)
    (htimer : env.runningTimer = .ok (some timer))
    (hnotes : timer.notes = some n)
    (hcontains : containsSub n t.key = true) :
    runSync env ctx = (.ok, []) := by
  unfold runSync
  rw [hsel]
  unfold syncReconcile
  rw [htimer]
  dsimp only
  rw [hnotes]
  dsimp only
  simp [hcontains]

/-- The all-clear context used by the sync witness. -/
def syncCtx0 : Context :=
  { dryRun := false, autoStart := false, autoStop := false,
    quiet := false, verbose := false }

/-- The running timer of the sync witness, already tracking `ABC-123`. -/
def syncTimer0 : TimeEntry :=
  { id := 77, spentDate := "2024-05-01".toList, hours := some (.finite 1),
    notes := some ("ABC-123 - working on fix".toList), isRunning := true,
    project := none, task := none, startedTime := none }

/-- The environment of the sync witness: one commit mentioning `ABC-123`,
an empty denylist, a Jira oracle answering every key, and prompt and
transport oracles that would fail if consulted. -/
def syncEnv0 : SyncEnv :=
  { commits := [{ message := "ABC-123: fix the bug".toList,
                  author := "dev".toList, timestamp := 100 }],
    denylist := [], autoSelectSingle := true, cfgProjectId := none,
    cfgTaskId := none, jiraBaseUrl := "https://x.example.net".toList,
    today := "2024-05-01".toList,
    fetchIssue := fun _ => .ok ("fix the bug".toList, "Open".toList),
    runningTimer := .ok (some syncTimer0),
    promptSelect := fun _ => .error .userCancelled,
    confirmStop := .error .userCancelled,
    http := fun _ => .error .harvest }

/-- The ticket the sync witness selects. -/
def syncTicket0 : Ticket :=
  { key := "ABC-123".toList, summary := "fix the bug".toList,
    status := some ("Open".toList) }

/-- C1 witness: the idempotency theorem applied to the concrete
environment, each hypothesis discharged by evaluation. -/
theorem sync_idempotent_witness :
    syncSelect syncEnv0 syncCtx0 = .selected syncTicket0 ∧
    syncEnv0.runningTimer = .ok (some syncTimer0) ∧
    syncTimer0.notes = some ("ABC-123 - working on fix".toList) ∧
    containsSub ("ABC-123 - working on fix".toList) syncTicket0.key = true ∧
    runSync syncEnv0 syncCtx0 = (.ok, []) :=
  ⟨by decide, rfl, rfl, by decide,
    sync_idempotent syncEnv0 syncCtx0 syncTicket0 syncTimer0
      ("ABC-123 - working on fix".toList) (by decide) rfl rfl (by decide)⟩

lemma mem_insertDesc {x c : Commit} : ∀ {l : List Commit},
    x ∈ insertDesc c l ↔ x = c ∨ x ∈ l := by
  intro l
  induction l with
  | nil => simp [insertDesc]
  | cons y ys ih =>
    rw [insertDesc]
    by_cases hy : y.timestamp < c.timestamp
    · rw [if_pos hy]
      exact List.mem_cons
    · rw [if_neg hy]
      simp only [List.mem_cons, ih]
      tauto

lemma mem_sortCommitsDesc {x : Commit} : ∀ {l : List Commit},
    x ∈ sortCommitsDesc l ↔ x ∈ l := by
  intro l
  induction l with
  | nil => simp [sortCommitsDesc]
  | cons c cs ih =>
    rw [sortCommitsDesc, List.foldr_cons]
    rw [show List.foldr insertDesc [] cs = sortCommitsDesc cs from rfl]
    rw [mem_insertDesc, ih]
    simp

lemma insertDesc_sorted {c : Commit} : ∀ {l : List Commit},
    l.Pairwise (fun u v => v.timestamp ≤ u.timestamp) →
    (insertDesc c l).Pairwise (fun u v => v.timestamp ≤ u.timestamp) := by
  intro l
  induction l with
  | nil =>
    intro _
    simp [insertDesc]
  | cons y ys ih =>
    intro hsort
    rw [List.pairwise_cons] at hsort
    obtain ⟨hy, hys⟩ := hsort
    rw [insertDesc]
    by_cases hlt : y.timestamp < c.timestamp
    · rw [if_pos hlt, List.pairwise_cons]
      refine ⟨?_, List.pairwise_cons.mpr ⟨hy, hys⟩⟩
      intro z hz
      rcases List.mem_cons.mp hz with hz | hz
      · subst hz
        exact le_of_lt hlt
      · exact le_trans (hy z hz) (le_of_lt hlt)
    · rw [if_neg hlt, List.pairwise_cons]
      refine ⟨?_, ih hys⟩
      intro z hz
      rcases mem_insertDesc.mp hz with hz | hz
      · subst hz
        exact le_of_not_lt hlt
      · exact hy z hz

lemma sortCommitsDesc_sorted : ∀ (l : List Commit),
    (sortCommitsDesc l).Pairwise (fun u v => v.timestamp ≤ u.timestamp) := by
  intro l
  induction l with
  | nil => simp [sortCommitsDesc]
  | cons c cs ih =>
    rw [sortCommitsDesc, List.foldr_cons]
    exact insertDesc_sorted ih

lemma mem_collectCommits {c : Commit} :
    ∀ (repoResults : List (Except HErr (List Commit))) (acc : List Commit),
    c ∈ repoResults.foldl
        (fun acc r =>
          match r with
          | .ok commits => acc ++ commits
          | .error _ => acc) acc ↔
      c ∈ acc ∨ ∃ r ∈ repoResults, ∃ cl, r = .ok cl ∧ c ∈ cl := by
  intro repoResults
  induction repoResults with
  | nil => simp
  | cons r rs ih =>
    intro acc
    rw [List.foldl_cons]
    cases r with
    | ok commits =>
      rw [ih]
      simp only [List.mem_append, List.mem_cons]
      constructor
      · rintro (⟨hc | hc⟩ | ⟨r2, hr2, cl, hcl, hc⟩)
        · exact Or.inl hc
        · exact Or.inr ⟨.ok commits, Or.inl rfl, commits, rfl, hc⟩
        · exact Or.inr ⟨r2, Or.inr hr2, cl, hcl, hc⟩
      · rintro (hc | ⟨r2, hr2 | hr2, cl, hcl, hc⟩)
        · exact Or.inl (Or.inl hc)
        · subst hr2
          injection hcl with hcl
          subst hcl
          exact Or.inl (Or.inr hc)
        · exact Or.inr ⟨r2, hr2, cl, hcl, hc⟩
    | error e =>
      rw [ih]
      simp only [List.mem_cons]
      constructor
      · rintro (hc | ⟨r2, hr2, cl, hcl, hc⟩)
        · exact Or.inl hc
        · exact Or.inr ⟨r2, Or.inr hr2, cl, hcl, hc⟩
      · rintro (hc | ⟨r2, hr2 | hr2, cl, hcl, hc⟩)
        · exact Or.inl hc
        · subst hr2
          exact absurd hcl (by simp)
        · exact Or.inr ⟨r2, hr2, cl, hcl, hc⟩

/-- C8 counterexample: a scan list consisting of exactly one repository
whose scan fails yields `Ok([])` — the failure is not propagated, contrary
to the claim. -/
theorem commit_scan_sole_failure_counterexample :
    getCommitsFromRepositories [Except.error HErr.io] = .ok [] ∧
    (getCommitsFromRepositories [Except.error HErr.io]).isOk = true :=
  ⟨by decide, by decide⟩

/-- C8 (amended): a failure on any repository — whether scanning many or
exactly one — is logged and skipped, never propagated: the function
always returns `Ok` with exactly the commits of the successful
repositories, sorted by timestamp descending. -/
theorem commit_scan_failures_skipped
    (repoResults : List (Except HErr (List Commit))) :
    ∃ commits, getCommitsFromRepositories repoResults = .ok commits ∧
      (∀ c, c ∈ commits ↔ ∃ r ∈ repoResults, ∃ cl, r = .ok cl ∧ c ∈ cl) ∧
      commits.Pairwise (fun u v => v.timestamp ≤ u.timestamp) := by
  refine ⟨_, rfl, ?_, sortCommitsDesc_sorted _⟩
  intro c
  rw [mem_sortCommitsDesc, mem_collectCommits]
  simp

/-- The environment of the C9 counterexample: no config directory is
determinable, and every file operation fails. -/
def fsEnvNoDir : FsEnv :=
  { configDir := none, readFile := fun _ => .error .io,
    parseJson := fun _ => .error .json, fileExists := fun _ => false }

/-- C9 counterexample: when the config directory cannot be determined,
`UsageCache::load` propagates a `Config` error instead of returning the
empty cache — the `usage_file_path()?` inside its error branch fails. -/
theorem usage_load_no_configdir_counterexample :
    UsageCache.load fsEnvNoDir = .error .config ∧
    UsageCache.load fsEnvNoDir ≠ .ok UsageCache.new :=
  ⟨by decide, by decide⟩

/-- C9 (amended): whenever the config directory is determinable, `load`
returns successfully for every state of the cache file — the parsed cache
on success, and the empty cache on any internal failure (missing,
unreadable, malformed, or too-new version). -/
theorem usage_load_total_with_configdir (env : FsEnv) (d : Str)
    (h : env.configDir = some d) :
    ∃ c, UsageCache.load env = .ok c ∧
      (∀ e, loadInternal env = .error e → c = UsageCache.new) ∧
      (∀ c0, loadInternal env = .ok c0 → c = c0) := by
  have hpath : usageFilePath env = .ok (d ++ "/harv/usage.json".toList) := by
    unfold usageFilePath
    rw [h]
  unfold UsageCache.load
  cases hli : loadInternal env with
  | ok c =>
    refine ⟨c, rfl, ?_, ?_⟩
    · intro e he
      exact absurd he (by simp)
    · intro c0 hc0
      injection hc0
  | error e =>
    rw [hpath]
    refine ⟨UsageCache.new, rfl, fun _ _ => rfl, ?_⟩
    intro c0 hc0
    exact absurd hc0 (by simp)

/-- The environment of the C9 witness: a determinable config directory
and a missing cache file. -/
def fsEnvFresh : FsEnv :=
  { configDir := some ("/home/u/.config".toList),
    readFile := fun _ => .error .io,
    parseJson := fun _ => .error .json, fileExists := fun _ => false }

/-- C9 witness: the amended theorem applied to the fresh environment. -/
theorem usage_load_total_with_configdir_witness :
    fsEnvFresh.configDir = some ("/home/u/.config".toList) ∧
    ∃ c, UsageCache.load fsEnvFresh = .ok c ∧
      (∀ e, loadInternal fsEnvFresh = .error e → c = UsageCache.new) ∧
      (∀ c0, loadInternal fsEnvFresh = .ok c0 → c = c0) :=
  ⟨rfl, usage_load_total_with_configdir fsEnvFresh
    ("/home/u/.config".toList) rfl⟩

/-- C10: `parse_response` is not total — on an input that opens a
```` ```json ```` fence and never closes it, the `unwrap()` on the second
`find` panics before any JSON decoding, whatever the decoder would do.
The claim (never panics) states the intent of the fallible signature; the
code violates it. -/
theorem parse_response_unclosed_fence_panics :
    extractJsonText ("```json \x7b\"time_entries\": []\x7d".toList) =
      PanicOr.panic ∧
    parseResponse (fun _ => .ok []) ("```json \x7b\"time_entries\": []\x7d".toList) =
      PanicOr.panic ∧
    parseResponse (fun _ => .error .json)
      ("```json \x7b\"time_entries\": []\x7d".toList) = PanicOr.panic := by
  have h : extractJsonText ("```json \x7b\"time_entries\": []\x7d".toList) =
      PanicOr.panic := by decide
  refine ⟨h, ?_, ?_⟩ <;> (unfold parseResponse; rw [h])

lemma ratTrunc_eq_floor {q : ℚ} (h : 0 ≤ q) : ratTrunc q = ⌊q⌋ := by
  unfold ratTrunc
  rw [Rat.floor_def]
  exact Int.tdiv_eq_ediv (Rat.num_nonneg.mpr h) (by positivity)

lemma toI64_finite_of_range (q : ℚ) (n : ℕ) (h1 : (n : ℚ) ≤ q)
    (h2 : q < (n : ℚ) + 1) (hb : ((n : ℚ) + 1) ≤ 2 ^ 63) :
    FVal.toI64 (.finite q) = n := by
  unfold FVal.toI64
  dsimp only
  have hq0 : (0 : ℚ) ≤ q := le_trans (by positivity) h1
  rw [if_neg (by intro hc; nlinarith), if_neg (by intro hc; nlinarith),
    ratTrunc_eq_floor hq0]
  rw [Int.floor_eq_iff]
  constructor
  · push_cast
    exact h1
  · push_cast
    exact h2

/-- The first entry of the deduplication counterexample: hours `1.999`. -/
def genCex1 : ProposedTimeEntry :=
  { description := "x".toList, projectId := 1, taskId := 1,
    hours := .finite (1999 / 1000), confidence := none }

/-- The second entry: identical description and ids, hours `2.001`. -/
def genCex2 : ProposedTimeEntry :=
  { description := "x".toList, projectId := 1, taskId := 1,
    hours := .finite (2001 / 1000), confidence := none }

lemma genCex1_key : entryKey genCex1 = ("x".toList, 1, 1, (199 : ℤ)) := by
  unfold entryKey genCex1
  dsimp only
  rw [show FVal.mul100 (.finite (1999 / 1000)) =
      .finite ((1999 : ℚ) / 1000 * 100) from rfl]
  rw [show ((199 : ℤ)) = ((199 : ℕ) : ℤ) by norm_num]
  rw [toI64_finite_of_range ((1999 : ℚ) / 1000 * 100) 199 (by norm_num)
    (by norm_num) (by norm_num)]

lemma genCex2_key : entryKey genCex2 = ("x".toList, 1, 1, (200 : ℤ)) := by
  unfold entryKey genCex2
  dsimp only
  rw [show FVal.mul100 (.finite (2001 / 1000)) =
      .finite ((2001 : ℚ) / 1000 * 100) from rfl]
  rw [show ((200 : ℤ)) = ((200 : ℕ) : ℤ) by norm_num]
  rw [toI64_finite_of_range ((2001 : ℚ) / 1000 * 100) 200 (by norm_num)
    (by norm_num) (by norm_num)]

/-- C4 counterexample: the deduplication key truncates `hours * 100`
toward zero (`as i64`) — it does not round.  These two entries share
description, project and task, and their hours differ by `0.002 < 0.005`,
yet they dedupe to two entries, not one: `1.999 * 100` truncates to `199`
while `2.001 * 100` truncates to `200` (rounding would give `200` for
both). -/
theorem generate_dedup_round_counterexample :
    genCex1.description = genCex2.description ∧
    genCex1.projectId = genCex2.projectId ∧
    genCex1.taskId = genCex2.taskId ∧
    genCex1.hours = .finite (1999 / 1000) ∧
    genCex2.hours = .finite (2001 / 1000) ∧
    |(1999 : ℚ) / 1000 - 2001 / 1000| < 5 / 1000 ∧
    dedupEntries [genCex1, genCex2] = [genCex1, genCex2] := by
  refine ⟨rfl, rfl, rfl, rfl, rfl, ?_, ?_⟩
  · rw [abs_sub_comm,
      abs_of_nonneg (by norm_num : (0 : ℚ) ≤ 2001 / 1000 - 1999 / 1000)]
    norm_num
  unfold dedupEntries dedupGo
  rw [if_neg (by simp)]
  unfold dedupGo
  rw [if_neg (by rw [genCex1_key, genCex2_key]; simp)]
  rfl

lemma dedupGo_sublist : ∀ (l : List ProposedTimeEntry)
    (seen : List (Str × Nat × Nat × ℤ)), (dedupGo seen l).Sublist l := by
  intro l
  induction l with
  | nil =>
    intro seen
    exact List.Sublist.refl []
  | cons e es ih =>
    intro seen
    rw [dedupGo]
    by_cases he : entryKey e ∈ seen
    · rw [if_pos he]
      exact List.Sublist.cons e (ih seen)
    · rw [if_neg he]
      exact List.Sublist.cons₂ e (ih (entryKey e :: seen))

lemma dedupGo_countP (k : Str × Nat × Nat × ℤ) :
    ∀ (l : List ProposedTimeEntry) (seen : List (Str × Nat × Nat × ℤ)),
    ((dedupGo seen l).countP fun e => entryKey e = k) =
      if k ∈ seen then 0
      else min (l.countP fun e => entryKey e = k) 1 := by
  intro l
  induction l with
  | nil =>
    intro seen
    simp [dedupGo]
  | cons e es ih =>
    intro seen
    rw [dedupGo]
    by_cases he : entryKey e ∈ seen
    · rw [if_pos he, ih]
      by_cases hk : k ∈ seen
      · rw [if_pos hk, if_pos hk]
      · rw [if_neg hk, if_neg hk, List.countP_cons]
        have : ¬ (entryKey e = k) := by
          intro h0
          subst h0
          exact hk he
        simp [this]
    · rw [if_neg he, List.countP_cons, ih, List.countP_cons]
      simp only [List.mem_cons, decide_eq_true_eq]
      by_cases hek : entryKey e = k
      · subst hek
        rw [if_pos (Or.inl rfl), if_pos rfl, if_neg he]
        omega
      · rw [if_neg hek]
        by_cases hk : k ∈ seen
        · rw [if_pos (Or.inr hk), if_pos hk]
        · rw [if_neg ?_, if_neg hk]
          · simp
          · rintro (h0 | h0)
            · exact hek h0.symm
            · exact hk h0

lemma dedupGo_find (k : Str × Nat × Nat × ℤ) :
    ∀ (l : List ProposedTimeEntry) (seen : List (Str × Nat × Nat × ℤ)),
    k ∉ seen →
    ((dedupGo seen l).find? fun e => entryKey e = k) =
      (l.find? fun e => entryKey e = k) := by
  intro l
  induction l with
  | nil =>
    intro seen _
    rfl
  | cons e es ih =>
    intro seen hk
    rw [dedupGo]
    by_cases hek : entryKey e = k
    · have he : entryKey e ∉ seen := by
        rw [hek]
        exact hk
      rw [if_neg he, List.find?_cons_of_pos _ (by simpa using hek),
        List.find?_cons_of_pos _ (by simpa using hek)]
    · rw [List.find?_cons_of_neg _ (by simpa using hek)]
      by_cases he : entryKey e ∈ seen
      · rw [if_pos he]
        exact ih seen hk
      · rw [if_neg he, List.find?_cons_of_neg _ (by simpa using hek)]
        refine ih (entryKey e :: seen) ?_
        intro hmem
        rcases List.mem_cons.mp hmem with h0 | h0
        · exact hek h0.symm
        · exact hk h0

/-- C4 (amended): `run_generate` deduplicates by the tuple
`(description, project_id, task_id, trunc(hours * 100))` — the saturating
`as i64` cast, truncation toward zero — preserving the first occurrence:
the retained list is a sublist of the input, keeps at most one entry per
key (exactly one when the key occurs), and the entry it keeps for a key
is the first one bearing it. -/
theorem generate_dedup_first_occurrence (l : List ProposedTimeEntry)
    (k : Str × Nat × Nat × ℤ) :
    ((dedupEntries l).countP fun e => entryKey e = k) =
      min (l.countP fun e => entryKey e = k) 1 ∧
    ((dedupEntries l).find? fun e => entryKey e = k) =
      (l.find? fun e => entryKey e = k) ∧
    (dedupEntries l).Sublist l := by
  refine ⟨?_, ?_, dedupGo_sublist l []⟩
  · rw [dedupEntries, dedupGo_countP]
    simp
  · rw [dedupEntries, dedupGo_find]
    simp

end Harv
